import Mathlib

/-
  A shallow embedding of the StateSafe finite-state-machine core
  (src/StateSafe.ts): the transition registry, the guarded fire protocol
  with its three hook phases, the derived-naming convention, and the
  file-backed log queue.  Hooks and user-defined methods are modelled as
  functions over an external environment type sigma (they are bound
  callables whose side effects the engine cannot observe except through
  that environment); JavaScript null/string unions become Option String.
-/

namespace StateSafe

/-! ### String helpers (JS String.prototype operations on ASCII data)

`nameConvert` in the source uses `split('_')`, `toLowerCase()`,
`charAt(0).toUpperCase()` and `slice(1)`.  We implement them by structural
recursion on the character list so that concrete evaluation reduces in the
kernel. -/

/-- ASCII lower-casing of one character, as JS `toLowerCase` acts on the
identifier characters used by the library. -/
def charLower (c : Char) : Char :=
  if 'A' ≤ c ∧ c ≤ 'Z' then Char.ofNat (c.toNat + 32) else c

/-- ASCII upper-casing of one character, as JS `toUpperCase` acts on the
identifier characters used by the library. -/
def charUpper (c : Char) : Char :=
  if 'a' ≤ c ∧ c ≤ 'z' then Char.ofNat (c.toNat - 32) else c

/-- JS `inputString.split('_')` on the underlying character list: always
returns at least one (possibly empty) part. -/
def splitUnderscore : List Char → List (List Char)
  | [] => [[]]
  | c :: cs =>
    let rest := splitUnderscore cs
    if c = '_' then [] :: rest
    else
      match rest with
      | [] => [[c]]
      | p :: ps => (c :: p) :: ps

/-- JS `part.charAt(0).toUpperCase() + part.slice(1)` (empty part maps to
the empty string). -/
def capitalizePart : List Char → List Char
  | [] => []
  | c :: cs => charUpper c :: cs

/-- FSM.nameConvert (src/StateSafe.ts lines 285-291): snake_case to
camelCase — first part lower-cased, each later part capitalized, joined. -/
def nameConvert (inputString : String) : String :=
  match splitUnderscore inputString.data with
  | [] => ""
  | firstPart :: remainingParts =>
    String.mk (firstPart.map charLower ++
      (remainingParts.map capitalizePart).flatten)

/-! ### TransitionWrapper (src/StateSafe.ts lines 29-88) -/

/-- TransitionWrapper.reservedWords (src/StateSafe.ts lines 30-43),
verbatim, duplicates included. -/
def reservedWords : List String := [
  "break", "case", "catch", "class", "const", "continue",
  "debugger", "default", "delete", "do", "else", "enum",
  "export", "extends", "false", "final", "finally", "for",
  "function", "if", "implements", "import", "in", "instanceof",
  "interface", "let", "module", "new", "null", "package",
  "private", "protected", "public", "return", "static", "super",
  "switch", "this", "throw", "try", "true", "type", "typeof",
  "var", "void", "while", "with", "yield", "as", "any", "boolean",
  "byte", "char", "double", "int", "long", "object", "short",
  "string", "undefined", "declare", "namespace", "require",
  "from", "extends", "implements", "interface", "keyof", "module",
  "typeof", "get", "set"]

/-- TransitionData (src/StateSafe.ts lines 12-16).  The TS field `from` is
a Lean keyword, hence `from'`. -/
structure TransitionData where
  from' : String
  to' : String
  event : String
  deriving DecidableEq, Repr

/-- TransitionWrapper.validateEvent (src/StateSafe.ts lines 72-78). -/
def validateEvent (event : String) : Bool :=
  if reservedWords.contains event then false else true

/-- The TransitionWrapper constructor (src/StateSafe.ts lines 57-63): an
invalid event yields the all-empty transition data. -/
def makeTransition (from' to' event : String) : TransitionData :=
  if validateEvent event then ⟨from', to', event⟩ else ⟨"", "", ""⟩

/-! ### Association-list helpers

The TS hook tables are plain JS objects keyed by event name; we model them
as association lists.  JS `Set` is insertion-ordered with add-if-absent. -/

/-- Lookup in an association list (JS `obj[key]`, `undefined` as none). -/
def lookupA {α : Type} : List (String × α) → String → Option α
  | [], _ => none
  | (k, v) :: rest, key => if k = key then some v else lookupA rest key

/-- JS `this.hooks[eventName] || []`. -/
def lookupD {α : Type} (m : List (String × List α)) (key : String) : List α :=
  match lookupA m key with
  | some l => l
  | none => []

/-- JS `if (!obj[k]) obj[k] = [];` — create the empty entry if absent. -/
def ensureKey {α : Type} (m : List (String × List α)) (key : String) :
    List (String × List α) :=
  match lookupA m key with
  | some _ => m
  | none => m ++ [(key, [])]

/-- JS `obj[k].push(v)` after `ensureKey`: append v to the list at key. -/
def pushAt {α : Type} : List (String × List α) → String → α →
    List (String × List α)
  | [], key, v => [(key, [v])]
  | (k, l) :: rest, key, v =>
    if k = key then (k, l ++ [v]) :: rest else (k, l) :: pushAt rest key v

/-- JS `obj[name] = f` — set or overwrite a keyed entry. -/
def setAt {α : Type} : List (String × α) → String → α → List (String × α)
  | [], key, v => [(key, v)]
  | (k, w) :: rest, key, v =>
    if k = key then (k, v) :: rest else (k, w) :: setAt rest key v

/-- JS `Set.add`: insertion-ordered, add only if absent. -/
def setAdd (xs : List String) (x : String) : List String :=
  if xs.contains x then xs else xs ++ [x]

/-! ### Hooks and the FSM record (src/StateSafe.ts lines 94-105)

A hook is a bound callable; its side effects live in an external
environment of type sigma, and a guard additionally returns a boolean.
We store every callable as `sigma → Bool × sigma`; the engine reads the
boolean only where the source reads a return value (the before phase).
User-defined bound methods — the targets of the `(this as any)[name]`
lookups used by the derived naming convention and by registration by
method name — are kept in the `methods` table.  The zero-argument fire
shortcuts installed by `transition` (`(this as any)[methodName] = () =>
this.fire(event)`) would be recursive values, so they are recorded
separately as a name-to-event table `shortcuts`. -/

/-- The FSM class state (src/StateSafe.ts lines 94-105) plus the table of
user-defined bound methods reachable by dynamic name lookup. -/
structure FSM (σ : Type) where
  _state : Option String := none
  _transitionName : Option String := some ""
  _fromState : Option String := some ""
  _toState : Option String := some ""
  _nextState : Option String := some ""
  transitions : List TransitionData := []
  uniqueStates : List String := []
  uniqueEvents : List String := []
  onHooks : List (String × List (σ → Bool × σ)) := []
  afterHooks : List (String × List (σ → Bool × σ)) := []
  beforeHooks : List (String × List (σ → Bool × σ)) := []
  methods : List (String × (σ → Bool × σ)) := []
  shortcuts : List (String × String) := []

variable {σ : Type}

/-- FSM.transition (src/StateSafe.ts lines 115-132): silently skipped when
the event is reserved, when the (from,to) pair is already used, or when
the event name is already used; otherwise appends the transition, extends
both uniqueness sets, and installs the camelCase fire shortcut. -/
def FSM.transition (fsm : FSM σ) (event from' to' : String) : FSM σ :=
  if validateEvent event then
    if ¬ fsm.transitions.any fun t => t.from' = from' ∧ t.to' = to' then
      if ¬ fsm.transitions.any fun t => t.event = event then
        { fsm with
          transitions := fsm.transitions ++ [makeTransition from' to' event]
          uniqueStates := setAdd (setAdd fsm.uniqueStates from') to'
          uniqueEvents := setAdd fsm.uniqueEvents event
          shortcuts := setAt fsm.shortcuts (nameConvert event) event }
      else fsm
    else fsm
  else fsm

/-- FSM.state (src/StateSafe.ts lines 141-151).  The optional TS parameter
is an `Option String`; JS `if (newState)` is true only for a present,
non-empty argument.  Returns the updated FSM and the TS return value. -/
def FSM.state (fsm : FSM σ) (newState : Option String) :
    FSM σ × Option String :=
  match newState with
  | some ns =>
    if ns ≠ "" then
      (if fsm._state = none ∧ fsm.uniqueStates.contains ns then
        { fsm with _state := some ns }
      else fsm, none)
    else (fsm, fsm._state)
  | none => (fsm, fsm._state)

/-- Lexicographic order on character lists by code point, the comparison
the default JS `Array.sort` applies to the ASCII identifiers used here. -/
def lexLe : List Char → List Char → Bool
  | [], _ => true
  | _ :: _, [] => false
  | a :: as, b :: bs =>
    if a.toNat < b.toNat then true
    else if b.toNat < a.toNat then false
    else lexLe as bs

/-- Lexicographic order on strings. -/
def strLe (a b : String) : Bool :=
  lexLe a.data b.data

/-- Insert a string into an already-sorted list, keeping it sorted. -/
def insertSorted (x : String) : List String → List String
  | [] => [x]
  | y :: ys => if strLe x y then x :: y :: ys else y :: insertSorted x ys

/-- JS `Array.from(set).sort()`: lexicographic sort of the distinct
elements (insertion sort — same result on the duplicate-free lists the
Sets produce). -/
def sortStrings : List String → List String
  | [] => []
  | x :: xs => insertSorted x (sortStrings xs)

/-- FSM.states (src/StateSafe.ts lines 158-161): unique states sorted. -/
def FSM.states (fsm : FSM σ) : List String :=
  sortStrings fsm.uniqueStates

/-- FSM.events (src/StateSafe.ts lines 168-171): unique events sorted. -/
def FSM.events (fsm : FSM σ) : List String :=
  sortStrings fsm.uniqueEvents

/-! ### The fire protocol (src/StateSafe.ts lines 179-237) -/

/-- JS `Array.prototype.every` over effectful guards: evaluates in order
and stops at the first hook returning false (line 201 of the source). -/
def everyHook : List (σ → Bool × σ) → σ → Bool × σ
  | [], env => (true, env)
  | h :: hs, env =>
    match h env with
    | (true, env') => everyHook hs env'
    | (false, env') => (false, env')

/-- JS `hooks.forEach(hook => hook())` (src/StateSafe.ts lines 420-441,
invokeOnHooks / invokeAfterHooks): run every hook in list order, return
values ignored. -/
def runHooks (hooks : List (σ → Bool × σ)) (env : σ) : σ :=
  hooks.foldl (fun env h => (h env).2) env

/-- The derived-convention callable of one phase: look up the camelCase
name `phase_event` among the bound methods and run it if it is a function
(src/StateSafe.ts lines 198-200, 210-213, 225-228).  The boolean result
matters only for the before phase. -/
def FSM.runDerived (fsm : FSM σ) (phase event : String) (env : σ) :
    Bool × σ :=
  match lookupA fsm.methods (nameConvert (phase ++ "_" ++ event)) with
  | some m => m env
  | none => (true, env)

/-- The guard evaluation of fire (src/StateSafe.ts lines 186-201): the
derived-name before callable runs first, then ALL registered before hooks
via `.every`; the transition may proceed only if both results are true. -/
def FSM.beforePhase (fsm : FSM σ) (eventName : String) (env : σ) :
    Bool × σ :=
  let (canProceed2, env1) := fsm.runDerived "before" eventName env
  let (canProceed1, env2) := everyHook (lookupD fsm.beforeHooks eventName) env1
  (canProceed1 && canProceed2, env2)

/-- The search predicate of line 183-184: the transition for the current
state and event. -/
def matchesTransition (eventName : String) (st : Option String)
    (t : TransitionData) : Bool :=
  t.event = eventName ∧ st = some t.from'

/-- Line 183-184: the first registered transition whose event matches and
whose source is the current state. -/
def FSM.findTransition (fsm : FSM σ) (eventName : String) :
    Option TransitionData :=
  fsm.transitions.find? (matchesTransition eventName fsm._state)

/-- FSM.fire (src/StateSafe.ts lines 179-237).  `stateChanged` (line 220)
only emits a debug log line when an ambient environment variable asks for
it; it never touches the FSM fields, so it is not modelled.  Returns the
updated FSM and the hook environment. -/
def FSM.fire (fsm : FSM σ) (eventName : String) (env : σ) : FSM σ × σ :=
  if fsm.uniqueEvents.contains eventName then
    let transitionFound := fsm.findTransition eventName
    -- lines 192-197: set the transition-context fields
    let fsm1 : FSM σ := { fsm with
      _transitionName := some eventName
      _fromState := fsm._state
      _toState := match transitionFound with
        | some t => some t.to'
        | none => fsm._toState
      _nextState := some "" }
    -- lines 198-201: guard evaluation
    let (canProceed, env2) := fsm.beforePhase eventName env
    match transitionFound with
    | some t =>
      if canProceed then
        -- line 205: nextState mirrors the target once guards have passed
        let fsm2 : FSM σ := { fsm1 with _nextState := some t.to' }
        -- lines 209-214: on phase (derived callable, then explicit hooks)
        let env3 := (fsm.runDerived "on" eventName env2).2
        let env4 := runHooks (lookupD fsm.onHooks eventName) env3
        -- lines 217-218: commit
        let fsm3 : FSM σ := { fsm2 with _state := some t.to', _nextState := some "" }
        -- lines 224-229: after phase (derived callable, then explicit hooks)
        let env5 := (fsm.runDerived "after" eventName env4).2
        let env6 := runHooks (lookupD fsm.afterHooks eventName) env5
        -- lines 230-233: clear the context fields (committed path only)
        ({ fsm3 with
          _transitionName := some ""
          _fromState := some ""
          _toState := some ""
          _nextState := some "" }, env6)
      else (fsm1, env2)
    | none => (fsm1, env2)
  else (fsm, env)

/-! ### Hook registration (src/StateSafe.ts lines 311-405)

A registrant is either a direct callable or the name of a bound method to
resolve at registration time. -/

/-- The `Function | string` parameter of the registration methods. -/
inductive Registrant (σ : Type) where
  | fn : (σ → Bool × σ) → Registrant σ
  | name : String → Registrant σ

/-- The shared registration body (push a callable, resolve a name, or do
nothing when a name does not resolve); the empty entry for the event is
created first, exactly as `if (!hooks[e]) hooks[e] = []` does. -/
def registerHook (methods : List (String × (σ → Bool × σ)))
    (hooks : List (String × List (σ → Bool × σ))) (eventName : String)
    (cb : Registrant σ) : List (String × List (σ → Bool × σ)) :=
  let hooks1 := ensureKey hooks eventName
  match cb with
  | .fn f => pushAt hooks1 eventName f
  | .name n =>
    match lookupA methods n with
    | some m => pushAt hooks1 eventName m
    | none => hooks1

/-- FSM.after (src/StateSafe.ts lines 311-326).  Note: unlike `before` and
`on`, the source has NO derived-convention-name skip here. -/
def FSM.after (fsm : FSM σ) (eventName : String) (cb : Registrant σ) :
    FSM σ :=
  { fsm with afterHooks := registerHook fsm.methods fsm.afterHooks eventName cb }

/-- FSM.on (src/StateSafe.ts lines 346-365): registration is skipped when
the supplied name equals the derived convention name `on<Event>`. -/
def FSM.on (fsm : FSM σ) (eventName : String) (cb : Registrant σ) : FSM σ :=
  match cb with
  | .name n =>
    if n = nameConvert ("on_" ++ eventName) then fsm
    else { fsm with onHooks := registerHook fsm.methods fsm.onHooks eventName cb }
  | .fn _ =>
    { fsm with onHooks := registerHook fsm.methods fsm.onHooks eventName cb }

/-- FSM.before (src/StateSafe.ts lines 386-405): registration is skipped
when the supplied name equals the derived convention name
`before<Event>`. -/
def FSM.before (fsm : FSM σ) (eventName : String) (cb : Registrant σ) :
    FSM σ :=
  match cb with
  | .name n =>
    if n = nameConvert ("before_" ++ eventName) then fsm
    else { fsm with beforeHooks := registerHook fsm.methods fsm.beforeHooks eventName cb }
  | .fn _ =>
    { fsm with beforeHooks := registerHook fsm.methods fsm.beforeHooks eventName cb }

/-! ### Operation sequences

A client of the library interleaves `transition` (defineTransition),
`state` (setInitial), hook registrations and `fire` calls; invariants are
stated over arbitrary such sequences starting from a freshly constructed
engine (whose subclass may define any bound methods). -/

/-- One public operation on the engine. -/
inductive Op (σ : Type) where
  | defineT (event from' to' : String)
  | seed (newState : Option String)
  | regBefore (eventName : String) (cb : Registrant σ)
  | regOn (eventName : String) (cb : Registrant σ)
  | regAfter (eventName : String) (cb : Registrant σ)
  | fireEvent (eventName : String)

/-- Apply one operation to the engine and the hook environment. -/
def applyOp (p : FSM σ × σ) : Op σ → FSM σ × σ
  | .defineT event from' to' => (p.1.transition event from' to', p.2)
  | .seed newState => ((p.1.state newState).1, p.2)
  | .regBefore eventName cb => (p.1.before eventName cb, p.2)
  | .regOn eventName cb => (p.1.on eventName cb, p.2)
  | .regAfter eventName cb => (p.1.after eventName cb, p.2)
  | .fireEvent eventName => p.1.fire eventName p.2

/-- Run a sequence of operations left to right. -/
def runOps (p : FSM σ × σ) : List (Op σ) → FSM σ × σ
  | [] => p
  | op :: ops => runOps (applyOp p op) ops

/-- A freshly constructed engine: every field at its initializer, with an
arbitrary table of subclass-defined bound methods. -/
def initFSM (methods : List (String × (σ → Bool × σ))) : FSM σ :=
  { methods := methods }

/-! ### The log emission queue (src/StateSafe.ts lines 676-705)

`log` enqueues when a sink path is configured and starts the drain if it
is idle; `processLogQueue` repeatedly shifts the oldest entry and appends
it (newline-terminated) to the sink, reporting an individual failure on
the error channel and continuing.  The asynchronous drain is modelled as
an interleaved step system: an `emit` step is a `log` call, and a
`drainTick` step is one iteration of the drain loop, carrying the
success/failure outcome the file system gives that append. -/

/-- The logging fields of a StateSafe instance together with the
observable output channels (sink file content, console, error channel). -/
structure LogState where
  logFileLocation : String := ""
  logQueue : List String := []
  writing : Bool := false
  sink : List String := []
  consoleOut : List String := []
  errOut : List String := []

/-- The error-channel line of a failed append (src/StateSafe.ts line 699);
the source interpolates only the file location, not the lost message. -/
def errLine (loc : String) : String :=
  "Failed to write log to file " ++ loc ++ ": error"

/-- StateSafe.log (src/StateSafe.ts lines 676-688): with a configured sink
path, push onto the queue and mark the drain active if it was idle;
otherwise write directly to the console. -/
def logEmit (s : LogState) (data : String) : LogState :=
  if s.logFileLocation ≠ "" then
    let s1 := { s with logQueue := s.logQueue ++ [data] }
    if ¬ s1.writing then { s1 with writing := true } else s1
  else { s with consoleOut := s.consoleOut ++ [data] }

/-- One iteration of StateSafe.processLogQueue (src/StateSafe.ts lines
690-705): applicable only while the drain is active; shifts the oldest
entry and appends it to the sink with a trailing newline, or reports the
failure and continues; an empty queue clears the writing guard.  (The JS
`if (message)` truthiness test skips an empty-string entry.) -/
def drainTick (s : LogState) (ok : Bool) : LogState :=
  if s.writing then
    match s.logQueue with
    | [] => { s with writing := false }
    | m :: rest =>
      let s1 := { s with logQueue := rest }
      if m ≠ "" then
        if ok then { s1 with sink := s1.sink ++ [m ++ "\n"] }
        else { s1 with errOut := s1.errOut ++ [errLine s.logFileLocation] }
      else s1
  else s

/-- One scheduled step of the logging subsystem. -/
inductive LogEvent where
  | emit (data : String)
  | tick (ok : Bool)

/-- Apply one logging step. -/
def logStep (s : LogState) : LogEvent → LogState
  | .emit data => logEmit s data
  | .tick ok => drainTick s ok

/-- Run a schedule of logging steps left to right. -/
def runLog (s : LogState) : List LogEvent → LogState
  | [] => s
  | e :: es => runLog (logStep s e) es

/-- The lines a schedule emits, in order. -/
def emitsOf : List LogEvent → List String
  | [] => []
  | .emit data :: es => data :: emitsOf es
  | .tick _ :: es => emitsOf es

/-! ### Accessors and specification predicates -/

/-- FSM.transitionName (src/StateSafe.ts lines 258-260). -/
def FSM.transitionName (fsm : FSM σ) : Option String := fsm._transitionName

/-- FSM.fromState (src/StateSafe.ts lines 262-264). -/
def FSM.fromState (fsm : FSM σ) : Option String := fsm._fromState

/-- FSM.toState (src/StateSafe.ts lines 266-268). -/
def FSM.toState (fsm : FSM σ) : Option String := fsm._toState

/-- FSM.nextState (src/StateSafe.ts lines 269-271). -/
def FSM.nextState (fsm : FSM σ) : Option String := fsm._nextState

/-- The zero-argument use of FSM.state (src/StateSafe.ts line 150): the
current-state accessor the spec calls currentStateValue. -/
def FSM.currentStateValue (fsm : FSM σ) : Option String :=
  (fsm.state none).2

/-- The exact condition under which a fire call commits its transition
(src/StateSafe.ts line 203 together with the line-181 event check): the
event is registered, a transition matches the current state, and the
guard conjunction holds. -/
def FSM.fireCommits (fsm : FSM σ) (eventName : String) (env : σ) : Bool :=
  fsm.uniqueEvents.contains eventName &&
  (fsm.findTransition eventName).isSome &&
  (fsm.beforePhase eventName env).1

/-- The engine-state invariant: the dynamic state is null or a registered
state name. -/
def StateOk (fsm : FSM σ) : Prop :=
  fsm._state = none ∨ ∃ s, fsm._state = some s ∧ s ∈ fsm.uniqueStates

/-- Every stored transition's endpoint states are in the unique-state
set. -/
def TransOk (fsm : FSM σ) : Prop :=
  ∀ t ∈ fsm.transitions, t.from' ∈ fsm.uniqueStates ∧ t.to' ∈ fsm.uniqueStates

/-- Every registered event name passed the reserved-word filter. -/
def EventsOk (fsm : FSM σ) : Prop :=
  ∀ e ∈ fsm.uniqueEvents, validateEvent e = true

/-- The preserved registry/engine invariant. -/
def Inv (fsm : FSM σ) : Prop :=
  StateOk fsm ∧ TransOk fsm ∧ EventsOk fsm

/-- The log-queue correspondence: the emitted lines split into a processed
prefix (each either in the sink, newline-terminated, or reported on the
error channel, by the outcome of its append) followed by the lines still
queued; nothing leaks to the console. -/
def LogAccounted (loc : String) (emitted : List String) (s : LogState) :
    Prop :=
  ∃ okd : List (String × Bool),
    emitted = okd.map Prod.fst ++ s.logQueue ∧
    s.sink = okd.filterMap (fun p => if p.2 then some (p.1 ++ "\n") else none) ∧
    s.errOut = okd.filterMap (fun p => if p.2 then none else some (errLine loc)) ∧
    s.consoleOut = []

/-! ### Concrete engines used to instantiate the theorems -/

/-- One transition e : A → B, not yet seeded. -/
def fsmAB : FSM Unit := (initFSM []).transition "e" "A" "B"

/-- One transition e : A → B, seeded in A. -/
def fsmABSeeded : FSM Unit := (fsmAB.state (some "A")).1

/-- e : A → B seeded in A, with one explicit before hook returning
false. -/
def fsmGuardBlocked : FSM Bool :=
  ((((initFSM []).transition "e" "A" "B").state (some "A")).1).before "e"
    (.fn fun env => (false, env))

/-- fsmGuardBlocked with a second before hook that records (in the Bool
environment) that it was evaluated. -/
def fsmShortCircuit : FSM Bool :=
  fsmGuardBlocked.before "e" (.fn fun _ => (true, true))

/-- A subclass method counting its invocations in the Nat environment. -/
def afterIncr : Nat → Bool × Nat := fun n => (true, n + 1)

/-- A subclass method table whose one entry is named exactly the derived
after-convention name for event my_event. -/
def afterMethods : List (String × (Nat → Bool × Nat)) :=
  [("afterMyEvent", afterIncr)]

/-- my_event : A → B seeded in A, with the afterMyEvent method defined. -/
def fsmAfterBase : FSM Nat :=
  (((initFSM afterMethods).transition "my_event" "A" "B").state
    (some "A")).1

/-- fsmAfterBase with afterMyEvent also registered as an explicit after
hook under its own derived-convention name. -/
def fsmAfterConvention : FSM Nat :=
  fsmAfterBase.after "my_event" (.name "afterMyEvent")

/-- A subclass method named by the derived on-convention for event e; it
appends a marker to the trace environment. -/
def onMethods : List (String × (List String → Bool × List String)) :=
  [("onE", fun tr => (true, tr ++ ["onDerived"]))]

/-- e : A → B seeded in A, with the derived on method defined and one
explicit on hook appending its own marker. -/
def fsmOnOrdering : FSM (List String) :=
  ((((initFSM onMethods).transition "e" "A" "B").state (some "A")).1).on "e"
    (.fn fun tr => (true, tr ++ ["onExplicit"]))

/-- The two-transition water registry of the spec's end-to-end examples. -/
def fsmWater : FSM Unit :=
  ((initFSM []).transition "condense" "GAS" "LIQUID").transition
    "freeze" "LIQUID" "SOLID"

/-! ## Helper lemmas -/

theorem mem_setAdd_of_mem {xs : List String} {x y : String} (h : x ∈ xs) :
    x ∈ setAdd xs y := by
  unfold setAdd
  split
  · exact h
  · exact List.mem_append_left _ h

theorem mem_setAdd_self (xs : List String) (y : String) : y ∈ setAdd xs y := by
  unfold setAdd
  split
  · next h => exact List.mem_of_elem_eq_true h
  · exact List.mem_append_right _ (List.mem_singleton.mpr rfl)

theorem mem_insertSorted {a x : String} {l : List String} :
    a ∈ insertSorted x l ↔ a = x ∨ a ∈ l := by
  induction l with
  | nil => simp [insertSorted]
  | cons y ys ih =>
    unfold insertSorted
    split
    · simp
    · simp only [List.mem_cons, ih]
      tauto

theorem mem_sortStrings {a : String} {l : List String} :
    a ∈ sortStrings l ↔ a ∈ l := by
  induction l with
  | nil => simp [sortStrings]
  | cons x xs ih => simp [sortStrings, mem_insertSorted, ih]

theorem everyHook_append (xs ys : List (σ → Bool × σ)) (env : σ) :
    everyHook (xs ++ ys) env =
      match everyHook xs env with
      | (true, env') => everyHook ys env'
      | (false, env') => (false, env') := by
  induction xs generalizing env with
  | nil => simp [everyHook]
  | cons h hs ih =>
    simp only [List.cons_append, everyHook]
    rcases h env with ⟨b, env'⟩
    cases b <;> simp [ih]

theorem lookupA_append_ensure {α : Type} (m : List (String × α)) (k : String)
    (v : α) (h : lookupA m k = none) : lookupA (m ++ [(k, v)]) k = some v := by
  induction m with
  | nil => simp [lookupA]
  | cons p rest ih =>
    rcases p with ⟨k', v'⟩
    rw [List.cons_append, lookupA]
    rw [lookupA] at h
    by_cases hk : k' = k
    · rw [if_pos hk] at h
      exact absurd h (by simp)
    · rw [if_neg hk] at h ⊢
      exact ih h

theorem lookupA_ensureKey {α : Type} (m : List (String × List α))
    (k : String) : lookupA (ensureKey m k) k = some (lookupD m k) := by
  unfold ensureKey lookupD
  cases h : lookupA m k with
  | some l => simp [h]
  | none => simp [h, lookupA_append_ensure m k _ h]

theorem lookupD_pushAt {α : Type} (m : List (String × List α)) (k : String)
    (l : List α) (v : α) (h : lookupA m k = some l) :
    lookupD (pushAt m k v) k = l ++ [v] := by
  induction m with
  | nil => simp [lookupA] at h
  | cons p rest ih =>
    rcases p with ⟨k', l'⟩
    rw [lookupA] at h
    rw [pushAt]
    by_cases hk : k' = k
    · rw [if_pos hk] at h ⊢
      rw [Option.some.injEq] at h
      subst h
      simp [lookupD, lookupA, hk]
    · rw [if_neg hk] at h ⊢
      simp only [lookupD, lookupA, if_neg hk]
      simpa [lookupD] using ih h

theorem lookupD_push {α : Type} (m : List (String × List α)) (k : String)
    (v : α) : lookupD (pushAt (ensureKey m k) k v) k = lookupD m k ++ [v] :=
  lookupD_pushAt _ _ _ _ (lookupA_ensureKey m k)

theorem mem_setAdd {xs : List String} {x y : String} :
    x ∈ setAdd xs y ↔ x ∈ xs ∨ x = y := by
  unfold setAdd
  split
  · next h =>
    constructor
    · exact Or.inl
    · rintro (hx | rfl)
      · exact hx
      · exact List.mem_of_elem_eq_true h
  · simp [List.mem_append]

theorem makeTransition_valid {from' to' event : String}
    (h : validateEvent event = true) :
    makeTransition from' to' event = ⟨from', to', event⟩ := by
  simp [makeTransition, h]

theorem fire_registry (fsm : FSM σ) (e : String) (env : σ) :
    (fsm.fire e env).1.uniqueStates = fsm.uniqueStates ∧
    (fsm.fire e env).1.uniqueEvents = fsm.uniqueEvents ∧
    (fsm.fire e env).1.transitions = fsm.transitions := by
  unfold FSM.fire
  split
  · rcases hbp : fsm.beforePhase e env with ⟨b, env2⟩
    simp only [hbp]
    cases b
    · cases hf : fsm.findTransition e <;> simp [hf]
    · cases hf : fsm.findTransition e <;> simp [hf]
  · simp

theorem fire_state (fsm : FSM σ) (e : String) (env : σ) :
    (fsm.fire e env).1._state = fsm._state ∨
    ∃ t ∈ fsm.transitions, (fsm.fire e env).1._state = some t.to' := by
  unfold FSM.fire
  split
  · rcases hbp : fsm.beforePhase e env with ⟨b, env2⟩
    simp only [hbp]
    cases b
    · cases hf : fsm.findTransition e <;> simp [hf]
    · cases hf : fsm.findTransition e with
      | none => simp [hf]
      | some t =>
        refine Or.inr ⟨t, List.mem_of_find?_eq_some hf, by simp [hf]⟩
  · exact Or.inl rfl

theorem inv_transition {fsm : FSM σ} (h : Inv fsm) (event from' to' : String) :
    Inv (fsm.transition event from' to') := by
  obtain ⟨hs, ht, he⟩ := h
  unfold FSM.transition
  split
  · split
    · split
      · rename_i hvalid hnp hnq
        refine ⟨?_, ?_, ?_⟩
        · unfold StateOk at hs ⊢
          rcases hs with hnone | ⟨s, hsome, hmem⟩
          · exact Or.inl hnone
          · exact Or.inr ⟨s, hsome,
              mem_setAdd.mpr (Or.inl (mem_setAdd.mpr (Or.inl hmem)))⟩
        · unfold TransOk at ht ⊢
          intro t htmem
          rcases List.mem_append.mp htmem with hold | hnew
          · obtain ⟨h1, h2⟩ := ht t hold
            exact ⟨mem_setAdd.mpr (Or.inl (mem_setAdd.mpr (Or.inl h1))),
              mem_setAdd.mpr (Or.inl (mem_setAdd.mpr (Or.inl h2)))⟩
          · rw [List.mem_singleton] at hnew
            subst hnew
            rw [makeTransition_valid hvalid]
            exact ⟨mem_setAdd.mpr (Or.inl (mem_setAdd_self _ _)),
              mem_setAdd_self _ _⟩
        · unfold EventsOk at he ⊢
          intro ev hev
          rcases mem_setAdd.mp hev with hin | hev
          · exact he ev hin
          · subst hev
            exact hvalid
      · exact ⟨hs, ht, he⟩
    · exact ⟨hs, ht, he⟩
  · exact ⟨hs, ht, he⟩

theorem inv_state {fsm : FSM σ} (h : Inv fsm) (ns : Option String) :
    Inv ((fsm.state ns).1) := by
  obtain ⟨hs, ht, he⟩ := h
  cases ns with
  | none => exact ⟨hs, ht, he⟩
  | some s =>
    unfold FSM.state
    dsimp only
    by_cases hne : s ≠ ""
    · rw [if_pos hne]
      by_cases hcond : fsm._state = none ∧ fsm.uniqueStates.contains s = true
      · rw [if_pos hcond]
        exact ⟨Or.inr ⟨s, rfl, List.mem_of_elem_eq_true hcond.2⟩, ht, he⟩
      · rw [if_neg hcond]
        exact ⟨hs, ht, he⟩
    · rw [if_neg hne]
      exact ⟨hs, ht, he⟩

theorem inv_fire {fsm : FSM σ} (h : Inv fsm) (e : String) (env : σ) :
    Inv ((fsm.fire e env).1) := by
  obtain ⟨hreg1, hreg2, hreg3⟩ := fire_registry fsm e env
  obtain ⟨hs, ht, he⟩ := h
  refine ⟨?_, ?_, ?_⟩
  · unfold StateOk at hs ⊢
    rcases fire_state fsm e env with heq | ⟨t, htmem, hto⟩
    · rw [heq, hreg1]
      exact hs
    · exact Or.inr ⟨t.to', hto, by rw [hreg1]; exact (ht t htmem).2⟩
  · unfold TransOk at ht ⊢
    intro t htmem
    rw [hreg3] at htmem
    rw [hreg1]
    exact ht t htmem
  · unfold EventsOk at he ⊢
    intro ev hev
    rw [hreg2] at hev
    exact he ev hev

theorem after_fields (fsm : FSM σ) (e : String) (cb : Registrant σ) :
    (fsm.after e cb)._state = fsm._state ∧
    (fsm.after e cb).uniqueStates = fsm.uniqueStates ∧
    (fsm.after e cb).uniqueEvents = fsm.uniqueEvents ∧
    (fsm.after e cb).transitions = fsm.transitions := by
  simp [FSM.after]

theorem on_fields (fsm : FSM σ) (e : String) (cb : Registrant σ) :
    (fsm.on e cb)._state = fsm._state ∧
    (fsm.on e cb).uniqueStates = fsm.uniqueStates ∧
    (fsm.on e cb).uniqueEvents = fsm.uniqueEvents ∧
    (fsm.on e cb).transitions = fsm.transitions := by
  cases cb with
  | fn f => simp [FSM.on]
  | name n =>
    by_cases hn : n = nameConvert ("on_" ++ e)
    · simp [FSM.on, hn]
    · simp [FSM.on, hn]

theorem before_fields (fsm : FSM σ) (e : String) (cb : Registrant σ) :
    (fsm.before e cb)._state = fsm._state ∧
    (fsm.before e cb).uniqueStates = fsm.uniqueStates ∧
    (fsm.before e cb).uniqueEvents = fsm.uniqueEvents ∧
    (fsm.before e cb).transitions = fsm.transitions := by
  cases cb with
  | fn f => simp [FSM.before]
  | name n =>
    by_cases hn : n = nameConvert ("before_" ++ e)
    · simp [FSM.before, hn]
    · simp [FSM.before, hn]

theorem inv_of_fields {fsm fsm' : FSM σ}
    (hf : fsm'._state = fsm._state ∧ fsm'.uniqueStates = fsm.uniqueStates ∧
      fsm'.uniqueEvents = fsm.uniqueEvents ∧ fsm'.transitions = fsm.transitions)
    (h : Inv fsm) : Inv fsm' := by
  obtain ⟨h1, h2, h3, h4⟩ := hf
  obtain ⟨hs, ht, he⟩ := h
  refine ⟨?_, ?_, ?_⟩
  · unfold StateOk at hs ⊢
    rw [h1, h2]
    exact hs
  · unfold TransOk at ht ⊢
    rw [h2, h4]
    exact ht
  · unfold EventsOk at he ⊢
    rw [h3]
    exact he

theorem inv_applyOp {p : FSM σ × σ} (h : Inv p.1) (op : Op σ) :
    Inv (applyOp p op).1 := by
  cases op with
  | defineT event from' to' => exact inv_transition h event from' to'
  | seed ns => exact inv_state h ns
  | regBefore e cb => exact inv_of_fields (before_fields p.1 e cb) h
  | regOn e cb => exact inv_of_fields (on_fields p.1 e cb) h
  | regAfter e cb => exact inv_of_fields (after_fields p.1 e cb) h
  | fireEvent e => exact inv_fire h e p.2

theorem inv_runOps {p : FSM σ × σ} (h : Inv p.1) (ops : List (Op σ)) :
    Inv (runOps p ops).1 := by
  induction ops generalizing p with
  | nil => exact h
  | cons op rest ih => exact ih (inv_applyOp h op)

theorem inv_init (ms : List (String × (σ → Bool × σ))) :
    Inv (initFSM ms) := by
  refine ⟨Or.inl rfl, ?_, ?_⟩ <;> intro x hx <;> simp [initFSM] at hx

/-! ## Claim theorems -/

/-- Claim C1, counterexample: with the single transition e : A → B and no
seed, fire("e") finds no matching transition, so the context fields set at
the start of the cycle are never cleared — transitionName() still reports
the event name after the call, which is neither empty nor null. -/
theorem fire_no_commit_context_not_cleared :
    (fsmAB.fire "e" ()).1.transitionName = some "e" ∧
    some "e" ≠ some "" ∧ some "e" ≠ (none : Option String) :=
  ⟨rfl, by decide, by decide⟩

/-- Claim C1, amended: the four transition-context accessors all report
empty after a fire call whose transition actually committed (registered
event, matching transition, guards passed); a guard-blocked or unmatched
fire leaves them holding the looked-up values instead. -/
theorem fire_commit_clears_context (σ : Type) (fsm : FSM σ) (e : String)
    (env : σ) (h : fsm.fireCommits e env = true) :
    (fsm.fire e env).1.transitionName = some "" ∧
    (fsm.fire e env).1.fromState = some "" ∧
    (fsm.fire e env).1.toState = some "" ∧
    (fsm.fire e env).1.nextState = some "" := by
  unfold FSM.fireCommits at h
  simp only [Bool.and_eq_true] at h
  obtain ⟨⟨hcont, hsome⟩, hguard⟩ := h
  unfold FSM.fire
  rcases hbp : fsm.beforePhase e env with ⟨b, env2⟩
  rw [hbp] at hguard
  simp only at hguard
  subst hguard
  cases hf : fsm.findTransition e with
  | none =>
    rw [hf] at hsome
    simp at hsome
  | some t =>
    have hmem : e ∈ fsm.uniqueEvents := List.mem_of_elem_eq_true hcont
    simp [hcont, hmem, hf, FSM.transitionName, FSM.fromState, FSM.toState,
      FSM.nextState]

/-- Witness for the amended C1 theorem at a committing fire. -/
theorem fire_commit_clears_context_witness :
    (fsmABSeeded.fire "e" ()).1.transitionName = some "" ∧
    (fsmABSeeded.fire "e" ()).1.fromState = some "" ∧
    (fsmABSeeded.fire "e" ()).1.toState = some "" ∧
    (fsmABSeeded.fire "e" ()).1.nextState = some "" :=
  fire_commit_clears_context Unit fsmABSeeded "e" () rfl

/-- Claim C2: when the guard conjunction of the before phase evaluates to
false for a registered event, fire leaves the current state unchanged and
the hook environment is exactly the one produced by the before phase — so
no on hook and no after hook (derived or explicit) ran, for every
environment type and every choice of hooks. -/
theorem guard_blocked_no_commit (σ : Type) (fsm : FSM σ) (e : String)
    (env : σ) (he : fsm.uniqueEvents.contains e = true)
    (hblock : (fsm.beforePhase e env).1 = false) :
    (fsm.fire e env).1.currentStateValue = fsm.currentStateValue ∧
    (fsm.fire e env).2 = (fsm.beforePhase e env).2 := by
  unfold FSM.fire
  rcases hbp : fsm.beforePhase e env with ⟨b, env2⟩
  rw [hbp] at hblock
  simp only at hblock
  subst hblock
  simp only [he]
  cases hf : fsm.findTransition e <;>
    simp [hf, FSM.currentStateValue, FSM.state]

/-- Witness for C2: the engine seeded in A with a false-returning before
hook stays in A and runs nothing after the guard. -/
theorem guard_blocked_no_commit_witness :
    (fsmGuardBlocked.fire "e" false).1.currentStateValue =
      fsmGuardBlocked.currentStateValue ∧
    (fsmGuardBlocked.fire "e" false).2 =
      (fsmGuardBlocked.beforePhase "e" false).2 :=
  guard_blocked_no_commit Bool fsmGuardBlocked "e" false rfl rfl

/-- Claim C5: for a non-empty argument the seed operation always returns
null; it mutates only from the null state to a registered state, is a
complete no-op otherwise, and once a seed has succeeded any further seed
attempt leaves the current state untouched. -/
theorem setInitial_contract (σ : Type) (fsm : FSM σ) (X : String)
    (hX : X ≠ "") :
    (fsm.state (some X)).2 = none ∧
    ((fsm._state = none ∧ fsm.uniqueStates.contains X = true) →
      (fsm.state (some X)).1._state = some X) ∧
    (¬ (fsm._state = none ∧ fsm.uniqueStates.contains X = true) →
      (fsm.state (some X)).1 = fsm) ∧
    (∀ Y : String, fsm._state = none → fsm.uniqueStates.contains X = true →
      ((fsm.state (some X)).1.state (some Y)).1.currentStateValue = some X) := by
  have hset : ∀ (h : fsm._state = none ∧ fsm.uniqueStates.contains X = true),
      (fsm.state (some X)).1 = { fsm with _state := some X } := by
    intro h
    unfold FSM.state
    dsimp only
    rw [if_pos hX, if_pos h]
  refine ⟨?_, ?_, ?_, ?_⟩
  · unfold FSM.state
    dsimp only
    rw [if_pos hX]
  · intro h
    rw [hset h]
  · intro h
    unfold FSM.state
    dsimp only
    rw [if_pos hX, if_neg h]
  · intro Y h1 h2
    rw [hset ⟨h1, h2⟩]
    by_cases hY : Y = ""
    · simp [FSM.state, FSM.currentStateValue, hY]
    · simp [FSM.state, FSM.currentStateValue, hY]

/-- Witness for C5 on the water registry: seeding GAS succeeds and a
second seed to LIQUID changes nothing. -/
theorem setInitial_contract_witness :
    (fsmWater.state (some "GAS")).2 = none ∧
    ((fsmWater._state = none ∧ fsmWater.uniqueStates.contains "GAS" = true) →
      (fsmWater.state (some "GAS")).1._state = some "GAS") ∧
    (¬ (fsmWater._state = none ∧ fsmWater.uniqueStates.contains "GAS" = true) →
      (fsmWater.state (some "GAS")).1 = fsmWater) ∧
    (∀ Y : String, fsmWater._state = none →
      fsmWater.uniqueStates.contains "GAS" = true →
      ((fsmWater.state (some "GAS")).1.state (some Y)).1.currentStateValue =
        some "GAS") :=
  setInitial_contract Unit fsmWater "GAS" (by decide)

/-- Claim C10: the empty string is falsy, so state("") takes the
zero-argument read path — it mutates nothing and returns the current
state value instead of the null a genuine seed attempt returns. -/
theorem state_empty_string_reads (σ : Type) (fsm : FSM σ) :
    fsm.state (some "") = (fsm, fsm.currentStateValue) := by
  simp [FSM.state, FSM.currentStateValue]

/-- Claim C3, counterexample: with two explicit before hooks for e, the
first returning false and the second recording its evaluation in the Bool
environment, fire leaves the flag unset — the second hook was never
evaluated, although running every registered hook for its side effects
would set it. -/
theorem before_hooks_all_run_counterexample :
    (fsmShortCircuit.fire "e" false).2 = false ∧
    runHooks (lookupD fsmShortCircuit.beforeHooks "e") false = true :=
  ⟨rfl, rfl⟩

/-- Claim C3, amended: the derived before callable runs first and the
explicit before hooks are evaluated in registration order, but evaluation
short-circuits — once a hook returns false, every later hook (any choice
of `post`) is skipped, the transition does not commit, and the final hook
environment is exactly the one the false-returning hook produced. -/
theorem before_hooks_short_circuit (σ : Type) (fsm : FSM σ) (e : String)
    (env : σ) (pre post : List (σ → Bool × σ)) (h : σ → Bool × σ)
    (he : fsm.uniqueEvents.contains e = true)
    (hhooks : lookupD fsm.beforeHooks e = pre ++ h :: post)
    (hpre : (everyHook pre (fsm.runDerived "before" e env).2).1 = true)
    (hfalse : (h (everyHook pre (fsm.runDerived "before" e env).2).2).1 = false) :
    (fsm.fire e env).1.currentStateValue = fsm.currentStateValue ∧
    (fsm.fire e env).2 =
      (h (everyHook pre (fsm.runDerived "before" e env).2).2).2 := by
  have hBP : fsm.beforePhase e env =
      (false, (h (everyHook pre (fsm.runDerived "before" e env).2).2).2) := by
    unfold FSM.beforePhase
    rcases hd : fsm.runDerived "before" e env with ⟨c2, env1⟩
    rw [hd] at hpre hfalse
    simp only at hpre hfalse
    dsimp only
    rw [hhooks, everyHook_append]
    rcases hp : everyHook pre env1 with ⟨bp, sp⟩
    rw [hp] at hpre hfalse
    simp only at hpre hfalse
    subst hpre
    rcases hh : h sp with ⟨bh, sh⟩
    rw [hh] at hfalse
    simp only at hfalse
    subst hfalse
    simp [everyHook, hh]
  constructor
  · unfold FSM.fire
    simp only [he, hBP]
    cases hf : fsm.findTransition e <;>
      simp [hf, FSM.currentStateValue, FSM.state]
  · unfold FSM.fire
    simp only [he, hBP]
    cases hf : fsm.findTransition e <;> simp [hf]

/-- Witness for the amended C3 theorem: the blocked engine stays in A and
ends with the environment the first (false) hook produced. -/
theorem before_hooks_short_circuit_witness :
    (fsmShortCircuit.fire "e" false).1.currentStateValue = some "A" ∧
    (fsmShortCircuit.fire "e" false).2 = false := by
  obtain ⟨h1, h2⟩ := before_hooks_short_circuit Bool fsmShortCircuit "e" false
    [] [(fun _ => (true, true))] (fun env => (false, env)) rfl rfl rfl rfl
  exact ⟨h1.trans rfl, h2.trans rfl⟩

/-- Claim C4: defineTransition is a complete silent no-op — the whole
engine record, hence the transition list, both uniqueness sets and the
installed shortcuts, is unchanged — whenever the event is reserved, the
(from,to) pair is taken, or the event name is taken; and over every
operation sequence from a fresh engine, "default" never appears in the
sorted event listing. -/
theorem defineTransition_silent_noop :
    (∀ (σ : Type) (fsm : FSM σ) (event from' to' : String),
      (validateEvent event = false ∨
       fsm.transitions.any (fun t => t.from' = from' ∧ t.to' = to') = true ∨
       fsm.transitions.any (fun t => t.event = event) = true) →
      fsm.transition event from' to' = fsm) ∧
    (∀ (σ : Type) (ms : List (String × (σ → Bool × σ))) (env : σ)
      (ops : List (Op σ)),
      "default" ∉ (runOps (initFSM ms, env) ops).1.events) := by
  constructor
  · intro σ fsm event from' to' hcase
    unfold FSM.transition
    rcases hcase with h | h | h
    · have hneg : ¬ (validateEvent event = true) := by simp [h]
      rw [if_neg hneg]
    · have hneg : ¬ ¬ ((fsm.transitions.any fun t =>
          t.from' = from' ∧ t.to' = to') = true) := by
        simp only [not_not]
        exact h
      rw [if_neg hneg, ite_self]
    · have hneg : ¬ ¬ ((fsm.transitions.any fun t =>
          t.event = event) = true) := by
        simp only [not_not]
        exact h
      rw [if_neg hneg, ite_self, ite_self]
  · intro σ ms env ops hmem
    have hinv := inv_runOps (p := (initFSM ms, env)) (inv_init ms) ops
    unfold FSM.events at hmem
    rw [mem_sortStrings] at hmem
    have hval := hinv.2.2 "default" hmem
    exact absurd hval (by decide)

/-- Witness for C4: all three rejection cases on the water registry, and
the reserved word "default" absent from the event listing after an
attempt to register it. -/
theorem defineTransition_silent_noop_witness :
    fsmWater.transition "default" "A" "B" = fsmWater ∧
    fsmWater.transition "melt" "LIQUID" "SOLID" = fsmWater ∧
    fsmWater.transition "freeze" "X" "Y" = fsmWater ∧
    "default" ∉
      (runOps ((initFSM [] : FSM Unit), ())
        [Op.defineT "default" "A" "B"]).1.events :=
  ⟨defineTransition_silent_noop.1 Unit fsmWater "default" "A" "B"
      (Or.inl (by decide)),
   defineTransition_silent_noop.1 Unit fsmWater "melt" "LIQUID" "SOLID"
      (Or.inr (Or.inl (by decide))),
   defineTransition_silent_noop.1 Unit fsmWater "freeze" "X" "Y"
      (Or.inr (Or.inr (by decide))),
   defineTransition_silent_noop.2 Unit [] () [Op.defineT "default" "A" "B"]⟩

/-- Claim C6, counterexample: registering the method name afterMyEvent as
an after hook for event my_event is NOT skipped (the source's after() has
no convention-name check): the hook list grows to length 1 and a
successful firing invokes the method twice — the invocation counter ends
at 2, not 1. -/
theorem after_convention_not_skipped_counterexample :
    (lookupD fsmAfterConvention.afterHooks "my_event").length = 1 ∧
    (fsmAfterConvention.fire "my_event" 0).2 = 2 :=
  ⟨rfl, rfl⟩

/-- Claim C6, amended: registration by the derived-convention name is a
no-op for the before and on phases only; for the after phase no such
check exists, and a resolvable convention-named method is appended to the
hook list (hence invoked a second time on top of its automatic derived
invocation). -/
theorem hook_convention_skip (σ : Type) (fsm : FSM σ) (e n : String) :
    (n = nameConvert ("on_" ++ e) → fsm.on e (.name n) = fsm) ∧
    (n = nameConvert ("before_" ++ e) → fsm.before e (.name n) = fsm) ∧
    (∀ m : σ → Bool × σ, lookupA fsm.methods n = some m →
      lookupD (fsm.after e (.name n)).afterHooks e =
        lookupD fsm.afterHooks e ++ [m]) := by
  refine ⟨?_, ?_, ?_⟩
  · intro hn
    simp [FSM.on, hn]
  · intro hn
    simp [FSM.before, hn]
  · intro m hm
    unfold FSM.after registerHook
    dsimp only
    rw [hm]
    exact lookupD_push fsm.afterHooks e m

/-- Witness for the amended C6 theorem on the my_event engine. -/
theorem hook_convention_skip_witness :
    (fsmAfterBase.on "my_event" (.name "onMyEvent") = fsmAfterBase) ∧
    (fsmAfterBase.before "my_event" (.name "beforeMyEvent") = fsmAfterBase) ∧
    lookupD (fsmAfterBase.after "my_event"
        (.name "afterMyEvent")).afterHooks "my_event" =
      lookupD fsmAfterBase.afterHooks "my_event" ++ [afterIncr] :=
  ⟨(hook_convention_skip Nat fsmAfterBase "my_event" "onMyEvent").1 rfl,
   (hook_convention_skip Nat fsmAfterBase "my_event" "beforeMyEvent").2.1 rfl,
   (hook_convention_skip Nat fsmAfterBase "my_event" "afterMyEvent").2.2
     afterIncr rfl⟩

/-- Claim C7: in a successful fire the final hook environment is obtained
by running, in order, the derived on callable, the explicit on hooks in
registration order, the derived after callable, then the explicit after
hooks in registration order, starting from the environment the before
phase produced — i.e. within each phase the derived-convention callable
always precedes the registered hooks. -/
theorem successful_fire_phase_order (σ : Type) (fsm : FSM σ) (e : String)
    (env : σ) (t : TransitionData)
    (he : fsm.uniqueEvents.contains e = true)
    (ht : fsm.findTransition e = some t)
    (hg : (fsm.beforePhase e env).1 = true) :
    (fsm.fire e env).2 =
      runHooks (lookupD fsm.afterHooks e)
        ((fsm.runDerived "after" e
          (runHooks (lookupD fsm.onHooks e)
            ((fsm.runDerived "on" e (fsm.beforePhase e env).2).2))).2) := by
  unfold FSM.fire
  rcases hbp : fsm.beforePhase e env with ⟨b, env2⟩
  rw [hbp] at hg
  simp only at hg
  subst hg
  have hmem : e ∈ fsm.uniqueEvents := List.mem_of_elem_eq_true he
  simp [he, hmem, ht]

/-- Witness for C7 (property P6): with the derived on method defined and
one explicit on hook, the trace shows the derived marker strictly before
the explicit one. -/
theorem successful_fire_phase_order_witness :
    (fsmOnOrdering.fire "e" []).2 = ["onDerived", "onExplicit"] :=
  (successful_fire_phase_order (List String) fsmOnOrdering "e" []
    ⟨"A", "B", "e"⟩ rfl rfl rfl).trans rfl

/-- Claim C8: after any sequence of defineTransition, seed,
hook-registration and fire operations on a freshly constructed engine,
the dynamic state is null or a member of the unique-state set. -/
theorem current_state_reachable (σ : Type)
    (ms : List (String × (σ → Bool × σ))) (env : σ) (ops : List (Op σ)) :
    (runOps (initFSM ms, env) ops).1._state = none ∨
    ∃ s, (runOps (initFSM ms, env) ops).1._state = some s ∧
      s ∈ (runOps (initFSM ms, env) ops).1.uniqueStates :=
  (inv_runOps (p := (initFSM ms, env)) (inv_init ms) ops).1

/-! ### Lemmas for the log queue (claim C9) -/

theorem logEmit_fields (s : LogState) (d : String)
    (h : s.logFileLocation ≠ "") :
    (logEmit s d).logFileLocation = s.logFileLocation ∧
    (logEmit s d).logQueue = s.logQueue ++ [d] ∧
    (logEmit s d).sink = s.sink ∧
    (logEmit s d).errOut = s.errOut ∧
    (logEmit s d).consoleOut = s.consoleOut := by
  unfold logEmit
  rw [if_pos h]
  by_cases hw : s.writing = true
  · simp [hw]
  · simp [hw]

theorem dt_true (s : LogState) (m : String) (rest' : List String)
    (hw : s.writing = true) (hq : s.logQueue = m :: rest') (hm : m ≠ "") :
    drainTick s true = { s with logQueue := rest', sink := s.sink ++ [m ++ "\n"] } := by
  unfold drainTick
  rw [if_pos hw, hq]
  dsimp only
  rw [if_pos hm]
  rfl

theorem dt_false (s : LogState) (m : String) (rest' : List String)
    (hw : s.writing = true) (hq : s.logQueue = m :: rest') (hm : m ≠ "") :
    drainTick s false =
      { s with
        logQueue := rest'
        errOut := s.errOut ++ [errLine s.logFileLocation] } := by
  unfold drainTick
  rw [if_pos hw, hq]
  dsimp only
  rw [if_pos hm]
  rfl

theorem dt_nil (s : LogState) (ok : Bool) (hw : s.writing = true)
    (hq : s.logQueue = []) :
    drainTick s ok = { s with writing := false } := by
  unfold drainTick
  rw [if_pos hw, hq]

theorem dt_idle (s : LogState) (ok : Bool) (hw : ¬ s.writing = true) :
    drainTick s ok = s := by
  unfold drainTick
  rw [if_neg hw]

theorem logStep_accounted (loc : String) (hloc : loc ≠ "") (s : LogState)
    (h1 : s.logFileLocation = loc) (h3 : ∀ x ∈ s.logQueue, x ≠ "")
    (emitted : List String) (h5 : LogAccounted loc emitted s)
    (ev : LogEvent) (hev : ∀ d, ev = .emit d → d ≠ "") :
    (logStep s ev).logFileLocation = loc ∧
    (∀ x ∈ (logStep s ev).logQueue, x ≠ "") ∧
    LogAccounted loc (emitted ++ emitsOf [ev]) (logStep s ev) := by
  cases ev with
  | emit d =>
    have hd : d ≠ "" := hev d rfl
    obtain ⟨hf1, hf2, hf3, hf4, hf5⟩ :=
      logEmit_fields s d (by rw [h1]; exact hloc)
    simp only [logStep, emitsOf]
    refine ⟨by rw [hf1, h1], ?_, ?_⟩
    · intro x hx
      rw [hf2] at hx
      rcases List.mem_append.mp hx with hx | hx
      · exact h3 x hx
      · rw [List.mem_singleton] at hx
        subst hx
        exact hd
    · obtain ⟨okd, e1, e2, e3, e4⟩ := h5
      refine ⟨okd, ?_, ?_, ?_, ?_⟩
      · rw [hf2, e1, List.append_assoc]
      · rw [hf3, e2]
      · rw [hf4, e3]
      · rw [hf5, e4]
  | tick ok =>
    simp only [logStep, emitsOf, List.append_nil]
    by_cases hw : s.writing = true
    · cases hq : s.logQueue with
      | nil =>
        rw [dt_nil s ok hw hq]
        obtain ⟨okd, e1, e2, e3, e4⟩ := h5
        exact ⟨h1, h3, okd, e1, e2, e3, e4⟩
      | cons m rest' =>
        have hm : m ≠ "" := h3 m (by rw [hq]; exact List.mem_cons_self m rest')
        obtain ⟨okd, e1, e2, e3, e4⟩ := h5
        have hq' : ∀ x ∈ rest', x ≠ "" := by
          intro x hx
          exact h3 x (by rw [hq]; exact List.mem_cons_of_mem m hx)
        cases ok with
        | true =>
          rw [dt_true s m rest' hw hq hm]
          refine ⟨h1, hq', okd ++ [(m, true)], ?_, ?_, ?_, ?_⟩
          · rw [e1, hq]
            simp
          · rw [e2]
            simp [List.filterMap_append]
          · rw [e3]
            simp [List.filterMap_append]
          · exact e4
        | false =>
          rw [dt_false s m rest' hw hq hm]
          refine ⟨h1, hq', okd ++ [(m, false)], ?_, ?_, ?_, ?_⟩
          · rw [e1, hq]
            simp
          · rw [e2]
            simp [List.filterMap_append]
          · rw [e3, h1]
            simp [List.filterMap_append]
          · exact e4
    · rw [dt_idle s ok hw]
      exact ⟨h1, h3, h5⟩

theorem runLog_accounted (loc : String) (hloc : loc ≠ "")
    (script : List LogEvent) :
    ∀ (s : LogState) (emitted : List String),
      s.logFileLocation = loc →
      (∀ x ∈ s.logQueue, x ≠ "") →
      (∀ d ∈ emitsOf script, d ≠ "") →
      LogAccounted loc emitted s →
      (runLog s script).logFileLocation = loc ∧
      (∀ x ∈ (runLog s script).logQueue, x ≠ "") ∧
      LogAccounted loc (emitted ++ emitsOf script) (runLog s script) := by
  induction script with
  | nil =>
    intro s emitted h1 h3 _ h5
    simpa [runLog, emitsOf] using ⟨h1, h3, h5⟩
  | cons ev rest ih =>
    intro s emitted h1 h3 h4 h5
    have hev : ∀ d, ev = .emit d → d ≠ "" := by
      intro d hd
      subst hd
      exact h4 d (by simp [emitsOf])
    obtain ⟨g1, g2, g3⟩ := logStep_accounted loc hloc s h1 h3 emitted h5 ev hev
    have h4' : ∀ d ∈ emitsOf rest, d ≠ "" := by
      intro d hd
      apply h4
      cases ev <;> simp [emitsOf, hd]
    obtain ⟨k1, k2, k3⟩ :=
      ih (logStep s ev) (emitted ++ emitsOf [ev]) g1 g2 h4' g3
    refine ⟨k1, k2, ?_⟩
    have heq : emitted ++ emitsOf (ev :: rest) =
        (emitted ++ emitsOf [ev]) ++ emitsOf rest := by
      cases ev <;> simp [emitsOf]
    rw [heq]
    exact k3

/-- Claim C9: over every interleaving of emit calls (all of them the
non-empty formatted lines the logger produces) and drain iterations with
arbitrary per-append outcomes, starting from a freshly configured sink
path, the emitted lines split into a processed oldest-first prefix and
the still-queued suffix; the sink holds exactly the successfully appended
ones, newline-terminated, in emission order; each failed append adds one
report to the error channel while the drain continues; and nothing is
written to the console.  Both step functions are total, so an emit step
is always available — the enqueue never blocks. -/
theorem log_queue_fifo (loc : String) (hloc : loc ≠ "")
    (script : List LogEvent) (hne : ∀ d ∈ emitsOf script, d ≠ "") :
    LogAccounted loc (emitsOf script)
      (runLog { logFileLocation := loc } script) := by
  have h := runLog_accounted loc hloc script { logFileLocation := loc } []
    rfl (by intro x hx; simp at hx) hne
    ⟨[], by simp, rfl, rfl, rfl⟩
  simpa using h.2.2

/-- Witness for C9 on a concrete five-step schedule with one failing
append. -/
theorem log_queue_fifo_witness :
    LogAccounted "app.log"
      (emitsOf [LogEvent.emit "a", LogEvent.tick true, LogEvent.emit "b",
        LogEvent.tick false, LogEvent.tick true])
      (runLog { logFileLocation := "app.log" }
        [LogEvent.emit "a", LogEvent.tick true, LogEvent.emit "b",
          LogEvent.tick false, LogEvent.tick true]) :=
  log_queue_fifo "app.log" (by decide)
    [LogEvent.emit "a", LogEvent.tick true, LogEvent.emit "b",
      LogEvent.tick false, LogEvent.tick true] (by decide)

end StateSafe
